import Mathlib

/-!
Verification of the OpenDevin agent core against its specification.

This file gives a shallow embedding, in Lean 4, of the parts of the
repository that the specification's claims talk about:

* the planning response parser
  (`agenthub/codeact_planning_agent/action_parser.py`),
* the memory condenser
  (`CodeActAgent.summarize_messages_inplace` in
  `agenthub/codeact_agent/codeact_agent.py`),
* the completion-retry loop of `CodeActAgent.step`,
* the controller loop (`opendevin/controller/agent_controller.py`),
* the observation-to-message projection (`get_observation_message`).

Python strings are embedded as `List Char`; machine integers do not
overflow in any of the embedded code paths, so `Nat`/`Int` are used
directly.  External collaborators (the LLM's token counter, completion
endpoint and summarizer, the sandbox) are parameters of the embedded
functions, mirroring the spec's interface boundaries.
-/

/-! ## String utilities (embedding of the Python string operations used) -/

/-- Boolean test that `pat` occurs at the very start of `s`
(embeds matching a literal at one position). -/
def leads : List Char → List Char → Bool
  | [], _ => true
  | _ :: _, [] => false
  | p :: ps, c :: cs => p == c && leads ps cs

/-- Boolean containment of `pat` in `s` (embeds Python `pat in s`). -/
def containsSeq : List Char → List Char → Bool
  | pat, [] => pat.isEmpty
  | pat, c :: cs => leads pat (c :: cs) || containsSeq pat cs

/-- Index of the first occurrence of `pat` in `s` at a position `≥ base`,
scanning `s` with `i` as the index of its head. -/
def firstOccFromAux (pat : List Char) (base : Nat) : List Char → Nat → Option Nat
  | [], i => if base ≤ i && leads pat [] then some i else none
  | c :: cs, i =>
      if base ≤ i && leads pat (c :: cs) then some i
      else firstOccFromAux pat base cs (i + 1)

/-- First occurrence of `pat` in `s`. -/
def firstOcc (pat s : List Char) : Option Nat :=
  firstOccFromAux pat 0 s 0

/-- Index of the last occurrence of `pat` in `s` at a position `≥ base`. -/
def lastOccFromAux (pat : List Char) (base : Nat) :
    List Char → Nat → Option Nat → Option Nat
  | [], i, acc => if base ≤ i && leads pat [] then some i else acc
  | c :: cs, i, acc =>
      lastOccFromAux pat base cs (i + 1)
        (if base ≤ i && leads pat (c :: cs) then some i else acc)

/-- The slice `s[a:b]` of Python (characters with index in `[a, b)`). -/
def sliceList (s : List Char) (a b : Nat) : List Char :=
  (s.take b).drop a

/-- Removal of every occurrence of `pat` from `s`, left to right
(embeds Python `s.replace(pat, '')`; fuel is the length of `s`, which
bounds the number of steps). -/
def deleteAllAux (pat : List Char) : Nat → List Char → List Char
  | 0, s => s
  | _ + 1, [] => []
  | fuel + 1, c :: cs =>
      if !pat.isEmpty && leads pat (c :: cs) then
        deleteAllAux pat fuel ((c :: cs).drop pat.length)
      else c :: deleteAllAux pat fuel cs

/-- Embedding of Python `s.replace(pat, '')`. -/
def deleteAll (s pat : List Char) : List Char :=
  deleteAllAux pat s.length s

/-- Python's notion of whitespace for `str.strip()`. -/
def isPySpace (c : Char) : Bool :=
  c == ' ' || c == '\t' || c == '\n' || c == '\r' || c == '\x0b' || c == '\x0c'

/-- Embedding of Python `s.strip()`. -/
def stripChars (s : List Char) : List Char :=
  ((s.dropWhile isPySpace).reverse.dropWhile isPySpace).reverse

/-- Embedding of Python `s.split('\n')`. -/
def splitNL : List Char → List (List Char)
  | [] => [[]]
  | c :: cs =>
      let r := splitNL cs
      if c == '\n' then [] :: r
      else
        match r with
        | [] => [[c]]
        | h :: t => (c :: h) :: t

/-- Embedding of Python `'\n'.join(lines)`. -/
def joinNL : List (List Char) → List Char
  | [] => []
  | [l] => l
  | l :: ls => l ++ '\n' :: joinNL ls

/-- Embedding of Python `int(s)` on a stripped string: optional sign
followed by at least one decimal digit; `none` models a raised
`ValueError`. -/
def digitsToNat : List Char → Option Nat
  | [] => none
  | cs =>
      cs.foldl
        (fun acc c =>
          match acc with
          | none => none
          | some n => if c.isDigit then some (n * 10 + (c.toNat - '0'.toNat)) else none)
        (some 0)

/-- Embedding of Python `int(s)` (decimal, optional sign). -/
def parsePyInt (s : List Char) : Option Int :=
  match s with
  | '-' :: rest => (digitsToNat rest).map (fun n => -(n : Int))
  | '+' :: rest => (digitsToNat rest).map (fun n => (n : Int))
  | _ => (digitsToNat s).map (fun n => (n : Int))

/-! ## Regex search embedding

The source uses `re.search` with three pattern shapes, all with
`re.DOTALL`: `open(.*?)close` (non-greedy), `open(.*)close` (greedy)
and `open.*close` (greedy, whole match only).  A Python `re.search`
match starts at the first occurrence of the literal `open` that is
followed (at a position past the open tag) by an occurrence of the
literal `close`; the non-greedy body ends at the first such `close`,
the greedy body at the last one. -/

/-- First occurrence of `pat` in the scanned list at a position `≥ base`;
`i` is the absolute index of the head of the scanned list. -/
def lastOccFrom (pat : List Char) (base : Nat) (s : List Char) : Option Nat :=
  lastOccFromAux pat base s 0 none

/-- A regex match: `g0` is the whole match (`group(0)`), `g1` the first
capture group (`group(1)`). -/
structure ReMatch where
  g0 : List Char
  g1 : List Char
deriving DecidableEq

/-- Embedding of `re.search(r'open(.*?)close', s, re.DOTALL)`. -/
def reSearchNG (o c s : List Char) : Option ReMatch :=
  match firstOcc o s with
  | none => none
  | some p =>
      match firstOccFromAux c (p + o.length) s 0 with
      | none => none
      | some q => some ⟨sliceList s p (q + c.length), sliceList s (p + o.length) q⟩

/-- Embedding of `re.search(r'open(.*)close', s, re.DOTALL)` (greedy). -/
def reSearchG (o c s : List Char) : Option ReMatch :=
  match firstOcc o s with
  | none => none
  | some p =>
      match lastOccFrom c (p + o.length) s with
      | none => none
      | some q => some ⟨sliceList s p (q + c.length), sliceList s (p + o.length) q⟩

/-! ## Planning response parser
(`agenthub/codeact_planning_agent/action_parser.py`) -/

/-- Actions produced by `CodeActPlanningResponseParser`.  `fatal` models
an exception escaping `parse` (the `int(...)` call raising `ValueError`,
or an assert failing); `delegate` carries the `task` input
(`agent` is the constant `'BrowsingAgent'`). -/
inductive PAction where
  | finish (thought : List Char)
  | cmdRun (command : List Char) (thought : List Char) (step : Option Int)
  | ipythonRun (code : List Char) (thought : List Char) (step : Option Int)
  | delegate (task : List Char) (step : Option Int)
  | savePlan (plan : List (List Char)) (thought : List Char)
  | planStep (step : Int) (thought : List Char)
  | message (content : List Char)
  | fatal
deriving DecidableEq

def openTagOf (t : List Char) : List Char := '<' :: (t ++ ['>'])

def closeTagOf (t : List Char) : List Char := '<' :: '/' :: (t ++ ['>'])

def tagBash : List Char := "execute_bash".toList
def tagIPython : List Char := "execute_ipython".toList
def tagBrowse : List Char := "execute_browse".toList
def tagSavePlan : List Char := "save_plan".toList
def tagPlanStep : List Char := "plan_step".toList
def tagFinish : List Char := "finish".toList

/-- Tags auto-closed by `parse_response` (source lines 45-51); note that
`finish` is not in this list. -/
def autoCloseTags : List (List Char) :=
  [tagBash, tagIPython, tagBrowse, tagSavePlan, tagPlanStep]

/-- One iteration of the `parse_response` loop body: append the closing
delimiter when the opening one is present but the closing one is not. -/
def autoClose1 (s : List Char) (t : List Char) : List Char :=
  if containsSeq (openTagOf t) s && !containsSeq (closeTagOf t) s then
    s ++ closeTagOf t
  else s

/-- Embedding of `CodeActPlanningResponseParser.parse_response` applied
to the response text (`response.choices[0].message.content`). -/
def parse_response (s : List Char) : List Char :=
  autoCloseTags.foldl autoClose1 s

/-- Condition of `CodeActPlanningActionParserFinish.check_condition`. -/
def finishCond (s : List Char) : Bool :=
  (reSearchG (openTagOf tagFinish) (closeTagOf tagFinish) s).isSome

/-- Embedding of `CodeActPlanningActionParserFinish.parse`. -/
def parseFinishAction (s : List Char) : PAction :=
  match reSearchG (openTagOf tagFinish) (closeTagOf tagFinish) s with
  | none => .fatal
  | some m => .finish (stripChars (deleteAll s m.g0))

def cmdRunCond (s : List Char) : Bool :=
  (reSearchNG (openTagOf tagBash) (closeTagOf tagBash) s).isSome

/-- Embedding of `CodeActPlanningActionParserCmdRun.parse`: the literal
command body `exit` is special-cased to `AgentFinishAction()` (whose
`thought` defaults to the empty string); a `plan_step` annotation is
stripped from the thought and parsed with `int` (failure is fatal). -/
def parseCmdRunAction (s : List Char) : PAction :=
  match reSearchNG (openTagOf tagBash) (closeTagOf tagBash) s with
  | none => .fatal
  | some m =>
      let thought := stripChars (deleteAll s m.g0)
      let command_group := stripChars m.g1
      if stripChars command_group == "exit".toList then .finish []
      else
        match reSearchNG (openTagOf tagPlanStep) (closeTagOf tagPlanStep) s with
        | none => .cmdRun command_group thought none
        | some pm =>
            let step_group := stripChars pm.g1
            let thought2 := stripChars (deleteAll thought pm.g0)
            match parsePyInt step_group with
            | none => .fatal
            | some n => .cmdRun command_group thought2 (some n)

def ipythonCond (s : List Char) : Bool :=
  (reSearchNG (openTagOf tagIPython) (closeTagOf tagIPython) s).isSome

/-- Embedding of `CodeActPlanningActionParserIPythonRunCell.parse`
(the constant `kernel_init_code` field is omitted). -/
def parseIPythonAction (s : List Char) : PAction :=
  match reSearchNG (openTagOf tagIPython) (closeTagOf tagIPython) s with
  | none => .fatal
  | some m =>
      let code_group := stripChars m.g1
      let thought := stripChars (deleteAll s m.g0)
      match reSearchNG (openTagOf tagPlanStep) (closeTagOf tagPlanStep) s with
      | none => .ipythonRun code_group thought none
      | some pm =>
          let step_group := stripChars pm.g1
          let _thought2 := stripChars (deleteAll thought pm.g0)
          match parsePyInt step_group with
          | none => .fatal
          | some n => .ipythonRun code_group _thought2 (some n)

def delegateCond (s : List Char) : Bool :=
  (reSearchG (openTagOf tagBrowse) (closeTagOf tagBrowse) s).isSome

/-- Embedding of `CodeActPlanningActionParserAgentDelegate.parse`: the
task string is built from the thought before any `plan_step` stripping
(the post-stripping thought is dead in the source). -/
def parseDelegateAction (s : List Char) : PAction :=
  match reSearchG (openTagOf tagBrowse) (closeTagOf tagBrowse) s with
  | none => .fatal
  | some m =>
      let thought := stripChars (deleteAll s m.g0)
      let browse_actions := stripChars m.g1
      let task := thought ++ ". I should start with: ".toList ++ browse_actions
      match reSearchNG (openTagOf tagPlanStep) (closeTagOf tagPlanStep) s with
      | none => .delegate task none
      | some pm =>
          let step_group := stripChars pm.g1
          match parsePyInt step_group with
          | none => .fatal
          | some n => .delegate task (some n)

def savePlanCond (s : List Char) : Bool :=
  (reSearchNG (openTagOf tagSavePlan) (closeTagOf tagSavePlan) s).isSome

/-- Embedding of `CodeActPlanningActionParserSavePlan.parse`. -/
def parseSavePlanAction (s : List Char) : PAction :=
  match reSearchNG (openTagOf tagSavePlan) (closeTagOf tagSavePlan) s with
  | none => .fatal
  | some m =>
      let plan_group := stripChars m.g1
      let thought := stripChars (deleteAll s m.g0)
      .savePlan (splitNL plan_group) thought

def planStepCond (s : List Char) : Bool :=
  (reSearchNG (openTagOf tagPlanStep) (closeTagOf tagPlanStep) s).isSome

/-- Embedding of `CodeActPlanningActionParserPlanStep.parse`. -/
def parsePlanStepAction (s : List Char) : PAction :=
  match reSearchNG (openTagOf tagPlanStep) (closeTagOf tagPlanStep) s with
  | none => .fatal
  | some m =>
      let step_group := stripChars m.g1
      let thought := stripChars (deleteAll s m.g0)
      match parsePyInt step_group with
      | none => .fatal
      | some n => .planStep n thought

/-- Embedding of `CodeActPlanningResponseParser.parse_action`: the first
matcher in the fixed priority order whose condition holds wins; the
default wraps the text in a `MessageAction`. -/
def parse_action (s : List Char) : PAction :=
  if finishCond s then parseFinishAction s
  else if cmdRunCond s then parseCmdRunAction s
  else if ipythonCond s then parseIPythonAction s
  else if delegateCond s then parseDelegateAction s
  else if savePlanCond s then parseSavePlanAction s
  else if planStepCond s then parsePlanStepAction s
  else .message s

/-- Embedding of `CodeActPlanningResponseParser.parse` (auto-close, then
prioritized matching). -/
def planning_parse (s : List Char) : PAction :=
  parse_action (parse_response s)

/-! ## Messages and the memory condenser
(`CodeActAgent.summarize_messages_inplace`,
`agenthub/codeact_agent/codeact_agent.py` lines 257-392) -/

/-- Message roles used by the code (`'system'`, `'user'`, `'assistant'`). -/
inductive Role where
  | system
  | user
  | assistant
deriving DecidableEq

/-- An LLM-facing message dict `{'role': ..., 'content': ...}`. -/
structure Msg where
  role : Role
  content : List Char
deriving DecidableEq

/-- Token count of a message list; the LLM collaborator's per-message
counter `tc` (the code's `self.llm.get_token_count([message])`) is a
parameter, and the count of a list is modelled as the sum of the
per-message counts. -/
def tokenCountList (tc : Msg → Nat) (l : List Msg) : Nat :=
  (l.map tc).sum

/-- The `for i, msg in enumerate(candidate_messages_to_summarize)` loop
of the source (lines 301-307): `cutoff` is set to the running index,
the token count is added, and the loop breaks once the running sum
exceeds `desired`; when the list is exhausted `cutoff` is the last
index.  `sofar` is `tokens_so_far`, `i` the index of the head. -/
def scanGo (desired : Nat) : List Nat → Nat → Nat → Nat
  | [], _, _ => 0
  | [_], _, i => i
  | t :: u :: rest, sofar, i =>
      if sofar + t > desired then i else scanGo desired (u :: rest) (sofar + t) (i + 1)

/-- The value of the source's `cutoff` variable right after the scan
loop (before the `cutoff += 1` line), as an index into the candidate
list `messages[2:]`. -/
def scanIdxFun (counts : List Nat) (desired : Nat) : Nat :=
  scanGo desired counts 0 0

/-- Source line 273: `message_buffer_token_count = sum(token_counts[2:])`. -/
def message_buffer_token_count (tc : Msg → Nat) (messages : List Msg) : Nat :=
  ((messages.map tc).drop 2).sum

/-- Source lines 274-277:
`int(message_buffer_token_count * MESSAGE_SUMMARY_TRUNC_TOKEN_FRAC)` with
the fraction 0.75; for the integer sizes involved the float product is
exact and `int` truncates toward zero, so this is `3 * buffer / 4` in
`Nat`. -/
def desired_token_count_to_summarize (tc : Msg → Nat) (messages : List Msg) : Nat :=
  message_buffer_token_count tc messages * 3 / 4

/-- The source's `cutoff` right after the `cutoff += 1` line (309), as
an index into the full message list: the scan index within
`messages[2:]` plus one. -/
def tentative_cutoff (tc : Msg → Nat) (messages : List Msg) : Nat :=
  scanIdxFun ((messages.map tc).drop 2)
    (desired_token_count_to_summarize tc messages) + 1

/-- The cutoff adjustment of source lines 311-320: inside a
`try/except IndexError`, if `messages[cutoff]` has role `user` the
cutoff advances by one — but only after `messages[new_cutoff]` has been
read, so when `new_cutoff` is out of range the `IndexError` lands in
the handler and the cutoff stays unchanged. -/
def adjustCutoff (messages : List Msg) (cutoff : Nat) : Nat :=
  match messages[cutoff]? with
  | none => cutoff
  | some m =>
      if m.role = Role.user then
        match messages[cutoff + 1]? with
        | none => cutoff
        | some _ => cutoff + 1
      else cutoff

/-- The cutoff finally used for slicing. -/
def final_cutoff (tc : Msg → Nat) (messages : List Msg) : Nat :=
  adjustCutoff messages (tentative_cutoff tc messages)

/-- The two `SummarizeError` raise sites of the source (lines 296-299
and 332-336); the spec calls this error CondenseError. -/
inductive SummarizeError where
  | noCandidates
  | rangeTooSmall
deriving DecidableEq

/-- Embedding of `CodeActAgent.summarize_messages_inplace`.  The
per-message token counter `tc` and the summarization call `summarizer`
(`opendevin.memory.condenser.summarize_messages`, an LLM collaborator)
are parameters.  The function reads `messages` but never writes to it;
the returned list is freshly built as
`messages[:2] + [assistant summary] + messages[cutoff:]` (lines
386-390). -/
def summarize_messages_inplace (tc : Msg → Nat)
    (summarizer : List Msg → List Char) (messages : List Msg) :
    Except SummarizeError (List Msg) :=
  let candidate_messages_to_summarize := messages.drop 2
  if candidate_messages_to_summarize.length = 0 then
    .error .noCandidates
  else
    let cutoff := final_cutoff tc messages
    let message_sequence_to_summarize := (messages.take cutoff).drop 2
    if message_sequence_to_summarize.length ≤ 1 then
      .error .rangeTooSmall
    else
      let summary := summarizer message_sequence_to_summarize
      .ok (messages.take 2 ++ [⟨Role.assistant, summary⟩] ++ messages.drop cutoff)

/-! ## The completion-retry loop of `CodeActAgent.step`
(`agenthub/codeact_agent/codeact_agent.py` lines 219-255) -/

/-- Outcome of one `self.llm.completion(...)` call: a response, a
raised `ContextWindowExceededError`, or any other raised exception. -/
inductive CompOutcome where
  | ok
  | ctxWindowError
  | otherError
deriving DecidableEq

/-- External collaborators of the step loop: the LLM's token counter,
limit check and completion endpoint (the completion outcome is an
oracle indexed by the number of completion calls made so far) and the
summarizer used by condensation. -/
structure StepEnv where
  tokenCount : Msg → Nat
  summarizer : List Msg → List Char
  overLimit : List Msg → Bool
  completionAt : Nat → CompOutcome

/-- How the `while` loop of `CodeActAgent.step` ends.
`parsedResponse got` is reaching `self.action_parser.parse(response)`
with (`got = true`) or without (`got = false`, i.e. `response = None`)
a completion response; the three `raised` outcomes are exceptions
escaping the loop. -/
inductive StepResult where
  | parsedResponse (gotResponse : Bool)
  | raisedContextWindowLimit
  | raisedSummarizeError
  | raisedOther
deriving DecidableEq

/-- Embedding of the retry loop body (source lines 219-255), recursing
on the number of loop iterations still allowed
(`attempts_to_condense - attempt`, which is positive exactly when the
loop guard `attempt < self.attempts_to_condense` holds, and which the
`attempt += 1` of the handler decrements by one), together with a count
of `self.llm.completion` calls.  Per the source: while there is no
response and the guard holds, the local limit check runs first and
raises `TokenLimitExceededError` before any completion call; the
handler for (`ContextWindowExceededError`, `TokenLimitExceededError`)
increments `attempt`, re-checks the same `messages` against the limit,
condenses when over the limit, and raises
`ContextWindowLimitExceededError` otherwise; a `SummarizeError` from
condensation and any other exception from `completion` propagate.
Falling out of the loop reaches `self.action_parser.parse(response)`
with `response` still `None`. -/
def codeact_step_loop_go (env : StepEnv) :
    Nat → List Msg → Nat → StepResult × Nat
  | 0, _, calls => (.parsedResponse false, calls)
  | remaining + 1, messages, calls =>
      if env.overLimit messages then
        match summarize_messages_inplace env.tokenCount env.summarizer messages with
        | .ok newMessages => codeact_step_loop_go env remaining newMessages calls
        | .error _ => (.raisedSummarizeError, calls)
      else
        match env.completionAt calls with
        | .ok => (.parsedResponse true, calls + 1)
        | .ctxWindowError => (.raisedContextWindowLimit, calls + 1)
        | .otherError => (.raisedOther, calls + 1)

/-- The retry loop of `CodeActAgent.step`, entered with an `attempt`
counter (0 at the start of a step) that the loop guard compares with
`attempts_to_condense` (set to 2 in `__init__`). -/
def codeact_step_loop (env : StepEnv) (attempts_to_condense : Nat)
    (messages : List Msg) (attempt : Nat) (calls : Nat) : StepResult × Nat :=
  codeact_step_loop_go env (attempts_to_condense - attempt) messages calls

/-! ## The controller loop
(`opendevin/controller/agent_controller.py`, `AgentController.step`
lines 195-274 and `AgentController._run` lines 129-154) -/

/-- Task states (`opendevin.schema.TaskState`; the enum itself is
outside `src/`, its members are those named by the controller and the
spec). -/
inductive TState where
  | initState
  | running
  | paused
  | awaitingUserInput
  | stopped
  | finishedState
  | rejected
  | errorState
deriving DecidableEq

/-- Controller-level view of an agent action: `nullA` is `NullAction`,
`finish` is `AgentFinishAction`, the task-mutating and other concrete
actions are collapsed into variants whose execution is an external
collaborator. -/
inductive CtrlAction where
  | nullA
  | finish
  | addTask
  | modifyTask
  | otherAction
deriving DecidableEq

/-- Observations recorded by the controller: `NullObservation`,
`AgentErrorObservation(str(e))`, or a collaborator's payload. -/
inductive CtrlObs where
  | nullObs
  | errorObs (msg : List Char)
  | payload (content : List Char)
deriving DecidableEq

/-- Exceptions the agent's step function can raise into the controller:
`AuthenticationError`, `AgentNoActionError`, or any other exception
(carrying its `str(e)` text). -/
inductive AgentExc where
  | authError
  | noActionError
  | genericError (msg : List Char)
deriving DecidableEq

/-- Exceptions that escape `AgentController.step`. -/
inductive CtrlExc where
  | maxCharsExceeded
  | authError
  | noActionError
deriving DecidableEq

/-- External collaborators of the controller: the agent's step function
(an oracle indexed by the number of agent calls made so far, returning
an action, `None`, or raising), the background-command observations
drained at each iteration, and the observation resulting from plan
mutation / action dispatch for a non-finish action. -/
structure CtrlEnv where
  maxChars : Nat
  agentResultAt : Nat → Except AgentExc (Option CtrlAction)
  backgroundObs : Nat → List CtrlObs
  dispatchObs : Nat → CtrlAction → CtrlObs

/-- Controller-owned state relevant to the embedded loop: the History
and `State.num_of_chars` (the `State` class lives outside `src/`; the
embedded code only reads the character count, so it is a plain field). -/
structure CtrlState where
  history : List (CtrlAction × CtrlObs)
  numChars : Nat
deriving DecidableEq

/-- Result of one `AgentController.step(i)` call: a raised exception or
a normal return (`finished` is the `return True` of the finish branch,
source lines 239-242), plus the updated agent-call count. -/
structure CtrlStepRes where
  exc : Option CtrlExc
  st : CtrlState
  finished : Bool
  calls : Nat
deriving DecidableEq

/-- Embedding of `AgentController.step` (source lines 195-274): check
the character budget, drain background observations into History, call
the agent inside `try/except` (converting exceptions into an
`AgentErrorObservation` except `AuthenticationError` /
`AgentNoActionError`, which re-raise; a `None` action raises
`AgentNoActionError`, which is also re-raised), return `True` on
`AgentFinishAction` without recording it, and otherwise record
`(action, observation)` in History, where the observation of plan
mutation and dispatch comes from external collaborators (`NullAction`
is not executable, so in the caught-exception path the recorded pair is
`(NullAction, AgentErrorObservation(str(e)))`). -/
def controller_step (env : CtrlEnv) (st : CtrlState) (i : Nat) (k : Nat) :
    CtrlStepRes :=
  if st.numChars > env.maxChars then ⟨some .maxCharsExceeded, st, false, k⟩
  else
    let st1 : CtrlState :=
      { st with history :=
          st.history ++ (env.backgroundObs i).map (fun o => (CtrlAction.nullA, o)) }
    match env.agentResultAt k with
    | .error .authError => ⟨some .authError, st1, false, k + 1⟩
    | .error .noActionError => ⟨some .noActionError, st1, false, k + 1⟩
    | .error (.genericError m) =>
        ⟨none,
          { st1 with history := st1.history ++ [(CtrlAction.nullA, CtrlObs.errorObs m)] },
          false, k + 1⟩
    | .ok none => ⟨some .noActionError, st1, false, k + 1⟩
    | .ok (some a) =>
        if a = CtrlAction.finish then ⟨none, st1, true, k + 1⟩
        else
          ⟨none, { st1 with history := st1.history ++ [(a, env.dispatchObs i a)] },
            false, k + 1⟩

/-- Embedding of the `for i in range(self._cur_step, self.max_iterations)`
loop of `AgentController._run` (source lines 136-151).  Exceptions from
`step` are re-raised (lines 137-141).  The source's subsequent `match`
on `self._task_state` has as its first case
`case TaskState.FINISHED, TaskState.STOPPED:` — a two-element sequence
pattern, while the subject is a `TaskState` enum member, so that case
can never be taken (it is embedded as no branch); the `PAUSED` case
breaks out of the loop.  The task state is mutated only externally, so
it is a constant parameter here.  `finishedPrev` is `self._finished`,
overwritten with the step's return value each iteration; `k` counts
calls of `self.agent.step`. -/
def controller_run_go (env : CtrlEnv) (taskState : TState) :
    Nat → Nat → CtrlState → Nat → Bool → CtrlStepRes
  | 0, _, st, k, finishedPrev => ⟨none, st, finishedPrev, k⟩
  | remaining + 1, i, st, k, _ =>
      let r := controller_step env st i k
      match r.exc with
      | some e => ⟨some e, r.st, r.finished, r.calls⟩
      | none =>
          if taskState = TState.paused then ⟨none, r.st, r.finished, r.calls⟩
          else controller_run_go env taskState remaining (i + 1) r.st r.calls r.finished

/-- The `_run` loop entered at iteration index `i` (`self._cur_step`)
with ceiling `maxIter` (`self.max_iterations`); the loop runs
`maxIter - i` iterations unless an exception or the `PAUSED` case ends
it early. -/
def controller_run (env : CtrlEnv) (taskState : TState) (maxIter : Nat)
    (i : Nat) (st : CtrlState) (k : Nat) (finishedPrev : Bool) : CtrlStepRes :=
  controller_run_go env taskState (maxIter - i) i st k finishedPrev

/-! ## Observation-to-message projection
(`get_observation_message` in `agenthub/codeact_agent/codeact_agent.py`
lines 74-96; `CodeActSWEAgent.get_observation_message` is identical in
the image-replacement logic) -/

/-- The substring whose presence in a line marks a base64 image payload
(source line 86). -/
def imgBase64Marker : List Char := "![image](data:image/png;base64,".toList

/-- The fixed placeholder that replaces a payload line (source lines
87-89). -/
def imgPlaceholder : List Char :=
  "![image](data:image/png;base64, ...) already displayed to user".toList

/-- The `'OBSERVATION:\n'` text prepended to observation content. -/
def obsPrefix : List Char := "OBSERVATION:\n".toList

/-- One iteration of the replacement loop (source lines 85-89): a line
containing the base64 marker is replaced wholesale by the placeholder. -/
def replaceImageLine (line : List Char) : List Char :=
  if containsSeq imgBase64Marker line then imgPlaceholder else line

/-- Modelled from the spec: `truncate_content`
(`opendevin.events.serialization.event`) is not under `src/`; the spec
says a single observation's text longer than a configured character
budget is truncated with a marker indicating how much was elided, and
content within the budget is untouched. -/
def truncate_content (s : List Char) (maxChars : Nat) : List Char :=
  if s.length ≤ maxChars then s
  else s.take maxChars ++ ("\n[... " ++ toString (s.length - maxChars) ++
    " characters elided ...]").toList

/-- Embedding of the `IPythonRunCellObservation` branch of
`get_observation_message` (source lines 81-92): prepend
`'OBSERVATION:\n'`, split on newlines, replace every marker-bearing
line with the placeholder, re-join, truncate, and wrap with role
`user`. -/
def ipython_observation_message (obsContent : List Char) (maxChars : Nat) : Msg :=
  let content1 := obsPrefix ++ obsContent
  let content2 := joinNL ((splitNL content1).map replaceImageLine)
  ⟨Role.user, truncate_content content2 maxChars⟩

/-! ## Concrete example inputs used by counterexamples and witnesses -/

/-- Message constructor shorthand. -/
def mkM (r : Role) (c : String) : Msg := ⟨r, c.toList⟩

/-- A token counter giving every message one token. -/
def exTc1 : Msg → Nat := fun _ => 1

/-- A token counter under which the summary message is expensive. -/
def exTcX : Msg → Nat := fun m => if m.content = "SUM".toList then 10 else 1

/-- A summarizer collaborator producing the fixed summary `SUM`. -/
def exSummarizer : List Msg → List Char := fun _ => "SUM".toList

def exMsgs2 : List Msg := [mkM .system "s", mkM .user "e"]

def exMsgs5 : List Msg :=
  [mkM .system "s", mkM .user "e", mkM .assistant "a", mkM .assistant "b",
   mkM .assistant "c"]

def exMsgs6 : List Msg :=
  [mkM .system "s", mkM .user "e", mkM .assistant "a", mkM .assistant "b",
   mkM .assistant "c", mkM .assistant "d"]

def exMsgs10 : List Msg :=
  [mkM .system "s", mkM .user "e"] ++
    (List.range 8).map (fun i => mkM .assistant (toString i))

/-- The condensation result on `exMsgs6` (cutoff 4). -/
def exRes1 : List Msg :=
  exMsgs6.take 2 ++ [⟨Role.assistant, "SUM".toList⟩] ++ exMsgs6.drop 4

/-- A step environment whose limit check always fires (so every loop
iteration condenses) and whose completion would succeed if reached. -/
def exStepEnvOver : StepEnv :=
  ⟨exTc1, exSummarizer, fun _ => true, fun _ => .ok⟩

/-- A step environment whose limit check never fires and whose
completion raises `ContextWindowExceededError`. -/
def exStepEnvCtx : StepEnv :=
  ⟨exTc1, exSummarizer, fun _ => false, fun _ => .ctxWindowError⟩

/-- A controller environment whose agent returns `AgentFinishAction` on
every call, with no background observations. -/
def exCtrlEnvFinish : CtrlEnv :=
  ⟨10000, fun _ => .ok (some .finish), fun _ => [], fun _ _ => .nullObs⟩

/-- A controller environment whose agent raises a generic exception on
its first call and `AuthenticationError` on its second. -/
def exCtrlEnvErr : CtrlEnv :=
  ⟨10000,
   fun k => if k = 0 then .error (.genericError "boom".toList) else .error .authError,
   fun _ => [], fun _ _ => .nullObs⟩

/-- A code-cell observation containing a base64 image payload line. -/
def exObsContent : List Char := "x\n![image](data:image/png;base64,AAAA)\ny".toList

/-! ## Helper lemmas: containment and search -/

theorem leads_append_of {p s : List Char} (t : List Char) (h : leads p s = true) :
    leads p (s ++ t) = true := by
  induction p generalizing s with
  | nil => simp [leads]
  | cons a ps ih =>
      cases s with
      | nil => simp [leads] at h
      | cons c cs =>
          simp only [leads, Bool.and_eq_true, beq_iff_eq] at h
          simp only [List.cons_append, leads, Bool.and_eq_true, beq_iff_eq]
          exact ⟨h.1, ih h.2⟩

theorem containsSeq_nil_pat (s : List Char) : containsSeq [] s = true := by
  cases s <;> simp [containsSeq, leads, List.isEmpty]

theorem containsSeq_append_left (p t : List Char) (s : List Char)
    (h : containsSeq p t = true) : containsSeq p (s ++ t) = true := by
  induction s with
  | nil => simpa using h
  | cons c cs ih =>
      simp only [List.cons_append, containsSeq, Bool.or_eq_true]
      exact Or.inr ih

theorem containsSeq_append_right (p s : List Char) (t : List Char)
    (h : containsSeq p s = true) : containsSeq p (s ++ t) = true := by
  induction s with
  | nil =>
      simp only [containsSeq, List.isEmpty_iff] at h
      subst h
      simp [containsSeq_nil_pat]
  | cons c cs ih =>
      simp only [containsSeq, Bool.or_eq_true] at h
      simp only [List.cons_append, containsSeq, Bool.or_eq_true]
      rcases h with h | h
      · exact Or.inl (by simpa using leads_append_of (s := c :: cs) t h)
      · exact Or.inr (ih h)

theorem leads_refl (p : List Char) : leads p p = true := by
  induction p with
  | nil => simp [leads]
  | cons a ps ih => simp [leads, ih]

theorem containsSeq_self (p : List Char) : containsSeq p p = true := by
  cases p with
  | nil => simp [containsSeq, List.isEmpty]
  | cons a ps => simp [containsSeq, leads_refl]

theorem containsSeq_append_self (s c : List Char) :
    containsSeq c (s ++ c) = true :=
  containsSeq_append_left c c s (containsSeq_self c)

theorem autoClose1_preserves {p s : List Char} (t : List Char)
    (h : containsSeq p s = true) : containsSeq p (autoClose1 s t) = true := by
  unfold autoClose1
  split
  · exact containsSeq_append_right p s _ h
  · exact h

theorem autoClose1_close (s t : List Char)
    (h : containsSeq (openTagOf t) s = true) :
    containsSeq (closeTagOf t) (autoClose1 s t) = true := by
  unfold autoClose1
  split
  · exact containsSeq_append_self s (closeTagOf t)
  · rename_i hcond
    cases hc : containsSeq (closeTagOf t) s with
    | true => rfl
    | false => exact absurd (by simp [h, hc]) hcond

theorem foldl_autoClose_preserves (l : List (List Char)) (p : List Char) :
    ∀ s : List Char, containsSeq p s = true →
      containsSeq p (l.foldl autoClose1 s) = true := by
  induction l with
  | nil => intro s h; simpa using h
  | cons a rest ih =>
      intro s h
      simpa [List.foldl_cons] using ih (autoClose1 s a) (autoClose1_preserves a h)

theorem firstOccFromAux_ge {pat : List Char} {base : Nat} :
    ∀ {s : List Char} {i p : Nat}, firstOccFromAux pat base s i = some p → i ≤ p := by
  intro s
  induction s with
  | nil =>
      intro i p h
      simp only [firstOccFromAux] at h
      split at h
      · exact (Option.some.inj h) ▸ le_refl i
      · exact absurd h (by simp)
  | cons c cs ih =>
      intro i p h
      simp only [firstOccFromAux] at h
      split at h
      · exact (Option.some.inj h) ▸ le_refl i
      · exact Nat.le_of_succ_le (ih h)

theorem firstOccFromAux_nil_pat {base i : Nat} (t : List Char) (hb : base ≤ i) :
    firstOccFromAux [] base t i = some i := by
  cases t <;> simp [firstOccFromAux, leads, hb]

theorem firstOccFromAux_append {pat t : List Char} {base : Nat} :
    ∀ {s : List Char} {i p : Nat}, firstOccFromAux pat base s i = some p →
      ∃ q, q ≤ p ∧ firstOccFromAux pat base (s ++ t) i = some q := by
  intro s
  induction s with
  | nil =>
      intro i p h
      simp only [firstOccFromAux] at h
      split at h
      · rename_i hcond
        simp only [Bool.and_eq_true, decide_eq_true_eq] at hcond
        have hpat : pat = [] := by
          cases pat with
          | nil => rfl
          | cons a ps => simp [leads] at hcond
        subst hpat
        exact ⟨i, Option.some.inj h ▸ le_refl i,
          by simpa using firstOccFromAux_nil_pat t hcond.1⟩
      · exact absurd h (by simp)
  | cons c cs ih =>
      intro i p h
      simp only [firstOccFromAux] at h
      split at h
      · rename_i hcond
        simp only [Bool.and_eq_true, decide_eq_true_eq] at hcond
        refine ⟨i, Option.some.inj h ▸ le_refl i, ?_⟩
        have hl : leads pat ((c :: cs) ++ t) = true := leads_append_of t hcond.2
        simp only [List.cons_append, firstOccFromAux]
        rw [if_pos]
        simp only [Bool.and_eq_true, decide_eq_true_eq]
        exact ⟨hcond.1, by simpa using hl⟩
      · have hge : i + 1 ≤ p := firstOccFromAux_ge h
        obtain ⟨q, hq, hq2⟩ := ih h
        simp only [List.cons_append, firstOccFromAux]
        split
        · exact ⟨i, by omega, rfl⟩
        · exact ⟨q, hq, hq2⟩

theorem firstOccFromAux_base_mono {pat : List Char} (base base' : Nat)
    (hb : base' ≤ base) :
    ∀ {s : List Char} {i : Nat}, (firstOccFromAux pat base s i).isSome = true →
      (firstOccFromAux pat base' s i).isSome = true := by
  intro s
  induction s with
  | nil =>
      intro i h
      simp only [firstOccFromAux] at h ⊢
      split at h
      · rename_i hcond
        simp only [Bool.and_eq_true, decide_eq_true_eq] at hcond
        rw [if_pos (by simp only [Bool.and_eq_true, decide_eq_true_eq]; exact ⟨by omega, hcond.2⟩)]
        simp
      · simp at h
  | cons c cs ih =>
      intro i h
      simp only [firstOccFromAux] at h ⊢
      split at h
      · rename_i hcond
        simp only [Bool.and_eq_true, decide_eq_true_eq] at hcond
        rw [if_pos (by simp only [Bool.and_eq_true, decide_eq_true_eq]; exact ⟨by omega, hcond.2⟩)]
        simp
      · split
        · simp
        · exact ih h

theorem lastOccFromAux_isSome_iff (pat : List Char) (base : Nat) :
    ∀ (s : List Char) (i : Nat) (acc : Option Nat),
      (lastOccFromAux pat base s i acc).isSome =
        (acc.isSome || (firstOccFromAux pat base s i).isSome) := by
  intro s
  induction s with
  | nil =>
      intro i acc
      simp only [lastOccFromAux, firstOccFromAux]
      split
      · simp
      · simp
  | cons c cs ih =>
      intro i acc
      simp only [lastOccFromAux, firstOccFromAux]
      rw [ih]
      split
      · simp
      · simp

theorem reSearchG_append_isSome {o c s : List Char} (t : List Char)
    (h : (reSearchG o c s).isSome = true) :
    (reSearchG o c (s ++ t)).isSome = true := by
  cases hfo : firstOcc o s with
  | none => simp [reSearchG, hfo] at h
  | some p =>
      cases hlo : lastOccFrom c (p + o.length) s with
      | none => simp [reSearchG, hfo, hlo] at h
      | some q =>
          obtain ⟨p2, hp2le, hp2⟩ :=
            firstOccFromAux_append (t := t) (show firstOccFromAux o 0 s 0 = some p from hfo)
          have hfc : (firstOccFromAux c (p + o.length) s 0).isSome = true := by
            have hiff := lastOccFromAux_isSome_iff c (p + o.length) s 0
              (none : Option Nat)
            have hval : lastOccFromAux c (p + o.length) s 0 none = some q := hlo
            rw [hval] at hiff
            simpa using hiff.symm
          obtain ⟨q0, hq0⟩ := Option.isSome_iff_exists.mp hfc
          obtain ⟨q2, hq2le, hq2⟩ := firstOccFromAux_append (t := t) hq0
          have hfc2 : (firstOccFromAux c (p2 + o.length) (s ++ t) 0).isSome = true := by
            refine firstOccFromAux_base_mono (p + o.length)
              (p2 + o.length) (by omega) ?_
            rw [hq2]
            rfl
          have hlo2 : (lastOccFrom c (p2 + o.length) (s ++ t)).isSome = true := by
            show (lastOccFromAux c (p2 + o.length) (s ++ t) 0 none).isSome = true
            rw [lastOccFromAux_isSome_iff c (p2 + o.length)]
            simpa using hfc2
          obtain ⟨q3, hq3⟩ := Option.isSome_iff_exists.mp hlo2
          have hfo2 : firstOcc o (s ++ t) = some p2 := hp2
          simp [reSearchG, hfo2, hq3]

theorem foldl_autoClose_append (l : List (List Char)) :
    ∀ s : List Char, ∃ t, l.foldl autoClose1 s = s ++ t := by
  induction l with
  | nil => intro s; exact ⟨[], by simp⟩
  | cons a rest ih =>
      intro s
      rcases ih (autoClose1 s a) with ⟨t2, ht2⟩
      by_cases hcond :
          (containsSeq (openTagOf a) s && !containsSeq (closeTagOf a) s) = true
      · refine ⟨closeTagOf a ++ t2, ?_⟩
        rw [List.foldl_cons, ht2, autoClose1, if_pos hcond, List.append_assoc]
      · refine ⟨t2, ?_⟩
        rw [List.foldl_cons, ht2, autoClose1, if_neg hcond]

/-- C8: closing-tag auto-completion.  For every tag in the parser's
auto-close list, a response containing the opening delimiter has the
closing delimiter present after `parse_response` (it is appended before
matching); and a response containing an unclosed `<execute_bash>`
parses identically to the same text with `</execute_bash>` appended,
so truncated output parses like well-closed output. -/
theorem claim_C8 :
    (∀ t, t ∈ autoCloseTags → ∀ s : List Char,
        containsSeq (openTagOf t) s = true →
        containsSeq (closeTagOf t) (parse_response s) = true)
    ∧ (∀ s : List Char, containsSeq (openTagOf tagBash) s = true →
        containsSeq (closeTagOf tagBash) s = false →
        planning_parse s = planning_parse (s ++ closeTagOf tagBash)) := by
  constructor
  · intro t ht s hopen
    obtain ⟨l1, l2, hdecomp⟩ := List.append_of_mem ht
    show containsSeq (closeTagOf t) (autoCloseTags.foldl autoClose1 s) = true
    rw [hdecomp, List.foldl_append, List.foldl_cons]
    have h1 : containsSeq (openTagOf t) (l1.foldl autoClose1 s) = true :=
      foldl_autoClose_preserves l1 _ s hopen
    exact foldl_autoClose_preserves l2 _ _ (autoClose1_close _ t h1)
  · intro s hopen hclose
    have h1 : autoClose1 s tagBash = s ++ closeTagOf tagBash := by
      rw [autoClose1, if_pos (by simp [hopen, hclose])]
    have h2 : autoClose1 (s ++ closeTagOf tagBash) tagBash = s ++ closeTagOf tagBash := by
      rw [autoClose1, if_neg (by simp [containsSeq_append_self])]
    have key : parse_response s = parse_response (s ++ closeTagOf tagBash) := by
      show autoCloseTags.foldl autoClose1 s =
        autoCloseTags.foldl autoClose1 (s ++ closeTagOf tagBash)
      simp only [autoCloseTags, List.foldl_cons, List.foldl_nil]
      rw [h1, h2]
    show parse_action (parse_response s) =
      parse_action (parse_response (s ++ closeTagOf tagBash))
    rw [key]

/-- C8 witness: the truncated text `<execute_bash>ls` parses to the
same action as the well-closed `<execute_bash>ls</execute_bash>`. -/
theorem claim_C8_witness :
    planning_parse "<execute_bash>ls".toList =
      planning_parse "<execute_bash>ls</execute_bash>".toList := by
  have h := claim_C8.2 "<execute_bash>ls".toList (by decide) (by decide)
  have e : "<execute_bash>ls".toList ++ closeTagOf tagBash =
      "<execute_bash>ls</execute_bash>".toList := by decide
  rw [e] at h
  exact h

/-- C7: finish detection has top parser priority.  Whenever the finish
regex matches (a well-formed finish delimiter pair is present),
`parse_action` returns a FinishTask action whose thought is the text
with the matched span removed and stripped — even if a command or any
other tag is also present; through the full pipeline, any response
whose text contains a well-formed finish pair yields a FinishTask
action. -/
theorem claim_C7 :
    (∀ (a : List Char) (m : ReMatch),
        reSearchG (openTagOf tagFinish) (closeTagOf tagFinish) a = some m →
        parse_action a = PAction.finish (stripChars (deleteAll a m.g0)))
    ∧ (∀ s : List Char, finishCond s = true →
        ∃ th, planning_parse s = PAction.finish th) := by
  constructor
  · intro a m hm
    have hc : finishCond a = true := by simp [finishCond, hm]
    rw [parse_action, if_pos hc]
    simp [parseFinishAction, hm]
  · intro s hs
    obtain ⟨t, ht⟩ := foldl_autoClose_append autoCloseTags s
    obtain ⟨m, hm⟩ := Option.isSome_iff_exists.mp hs
    have h2 : (reSearchG (openTagOf tagFinish) (closeTagOf tagFinish)
        (s ++ t)).isSome = true :=
      reSearchG_append_isSome t (by simp [hm])
    obtain ⟨m2, hm2⟩ := Option.isSome_iff_exists.mp h2
    refine ⟨stripChars (deleteAll (s ++ t) m2.g0), ?_⟩
    have hpr : parse_response s = s ++ t := ht
    show parse_action (parse_response s) = _
    rw [hpr]
    have hcf : finishCond (s ++ t) = true := by simp [finishCond, hm2]
    rw [parse_action, if_pos hcf]
    simp [parseFinishAction, hm2]

/-- C7 witness: a response containing both a command tag and a finish
tag parses to FinishTask, never RunCommand. -/
theorem claim_C7_witness :
    ∃ th, planning_parse
        "Doing it <execute_bash>ls</execute_bash> now <finish>done</finish>".toList =
      PAction.finish th :=
  claim_C7.2 _ (by decide)

/-! ## Helper lemmas: the condenser scan and cutoff -/

theorem scanGo_spec (desired : Nat) :
    ∀ (l : List Nat), l ≠ [] → ∀ (sofar i : Nat),
      ∃ m, scanGo desired l sofar i = i + m ∧ m < l.length ∧
        (∀ p, p < m → sofar + (l.take (p + 1)).sum ≤ desired) ∧
        (sofar + (l.take (m + 1)).sum > desired ∨
          (m = l.length - 1 ∧ sofar + l.sum ≤ desired)) := by
  intro l
  induction l with
  | nil => intro h; exact absurd rfl h
  | cons t rest ih =>
      intro _ sofar i
      cases rest with
      | nil =>
          refine ⟨0, by simp [scanGo], by simp, fun p hp => absurd hp (by omega), ?_⟩
          by_cases hgt : sofar + t > desired
          · left; simpa using hgt
          · right
            exact ⟨by simp, by simpa using Nat.le_of_not_lt hgt⟩
      | cons u rest2 =>
          by_cases hgt : sofar + t > desired
          · refine ⟨0, by simp [scanGo, hgt], by simp, fun p hp => absurd hp (by omega),
              Or.inl (by simpa using hgt)⟩
          · obtain ⟨m2, h1, h2, h3, h4⟩ := ih (by simp) (sofar + t) (i + 1)
            refine ⟨m2 + 1, ?_, ?_, ?_, ?_⟩
            · rw [scanGo, if_neg hgt, h1]
              omega
            · simp only [List.length_cons] at h2 ⊢
              omega
            · intro p hp
              cases p with
              | zero =>
                  simp only [List.take_succ_cons, List.take_zero, List.sum_cons,
                    List.sum_nil]
                  omega
              | succ p2 =>
                  have hh := h3 p2 (by omega)
                  simp only [List.take_succ_cons, List.sum_cons] at hh ⊢
                  omega
            · rcases h4 with h4 | ⟨h4a, h4b⟩
              · left
                simp only [List.take_succ_cons, List.sum_cons] at h4 ⊢
                omega
              · right
                constructor
                · simp only [List.length_cons] at h4a ⊢
                  omega
                · simp only [List.sum_cons] at h4b ⊢
                  omega

theorem adjustCutoff_cases (messages : List Msg) (c : Nat) :
    adjustCutoff messages c = c ∨
      (adjustCutoff messages c = c + 1 ∧ c + 1 < messages.length) := by
  cases h1 : messages[c]? with
  | none => left; simp [adjustCutoff, h1]
  | some m =>
      by_cases hr : m.role = Role.user
      · cases h2 : messages[c + 1]? with
        | none => left; simp [adjustCutoff, h1, h2, hr]
        | some m2 =>
            right
            refine ⟨by simp [adjustCutoff, h1, h2, hr], ?_⟩
            by_contra hge
            rw [List.getElem?_eq_none (by omega)] at h2
            exact absurd h2 (by simp)
      · left; simp [adjustCutoff, h1, hr]

theorem tentative_cutoff_le (tc : Msg → Nat) (messages : List Msg)
    (h : messages.drop 2 ≠ []) :
    tentative_cutoff tc messages ≤ messages.length - 2 ∧ 2 < messages.length := by
  have hlen : 2 < messages.length := by
    by_contra hh
    exact h (List.drop_eq_nil_of_le (by omega))
  have hcnt : ((messages.map tc).drop 2) ≠ [] := by
    intro hh
    have := congrArg List.length hh
    simp only [List.length_drop, List.length_map, List.length_nil] at this
    omega
  obtain ⟨m, hmeq, hmlt, _, _⟩ :=
    scanGo_spec (desired_token_count_to_summarize tc messages)
      ((messages.map tc).drop 2) hcnt 0 0
  refine ⟨?_, hlen⟩
  rw [tentative_cutoff, scanIdxFun, hmeq]
  simp only [List.length_drop, List.length_map] at hmlt
  omega

theorem final_cutoff_lt (tc : Msg → Nat) (messages : List Msg)
    (h : messages.drop 2 ≠ []) :
    final_cutoff tc messages < messages.length := by
  obtain ⟨hb, hlen⟩ := tentative_cutoff_le tc messages h
  rcases adjustCutoff_cases messages (tentative_cutoff tc messages) with hc | ⟨hc, hlt⟩
  · rw [final_cutoff, hc]; omega
  · rw [final_cutoff, hc]; omega

theorem summarize_ok_spec (tc : Msg → Nat) (sm : List Msg → List Char)
    (messages res : List Msg)
    (h : summarize_messages_inplace tc sm messages = .ok res) :
    4 ≤ final_cutoff tc messages ∧ final_cutoff tc messages < messages.length ∧
      2 ≤ ((messages.take (final_cutoff tc messages)).drop 2).length ∧
      res = messages.take 2 ++
        [⟨Role.assistant, sm ((messages.take (final_cutoff tc messages)).drop 2)⟩] ++
        messages.drop (final_cutoff tc messages) := by
  simp only [summarize_messages_inplace] at h
  split at h
  · exact absurd h (by simp)
  · rename_i hcand
    split at h
    · exact absurd h (by simp)
    · rename_i hslice
      have hres := (Except.ok.inj h).symm
      have hdrop : messages.drop 2 ≠ [] := by
        intro hh
        exact hcand (by rw [hh]; rfl)
      have hlt : final_cutoff tc messages < messages.length :=
        final_cutoff_lt tc messages hdrop
      have hsl : 2 ≤ ((messages.take (final_cutoff tc messages)).drop 2).length := by
        omega
      have hlenslice :
          ((messages.take (final_cutoff tc messages)).drop 2).length =
            min (final_cutoff tc messages) messages.length - 2 := by
        simp [List.length_drop, List.length_take]
      have hmin : min (final_cutoff tc messages) messages.length =
          final_cutoff tc messages := Nat.min_eq_left (le_of_lt hlt)
      refine ⟨by omega, hlt, hsl, hres⟩

theorem tokenCountList_append (tc : Msg → Nat) (a b : List Msg) :
    tokenCountList tc (a ++ b) = tokenCountList tc a + tokenCountList tc b := by
  simp [tokenCountList]

theorem tokenCountList_decomp (tc : Msg → Nat) (messages : List Msg) (c : Nat)
    (h2 : 2 ≤ c) :
    tokenCountList tc messages =
      tokenCountList tc (messages.take 2) +
      tokenCountList tc ((messages.take c).drop 2) +
      tokenCountList tc (messages.drop c) := by
  conv_lhs => rw [← List.take_append_drop c messages]
  rw [tokenCountList_append]
  conv_lhs => rw [← List.take_append_drop 2 (messages.take c)]
  rw [tokenCountList_append, List.take_take, Nat.min_eq_left h2]

/-- C1 counterexample: under a token counter that prices the summary
message at 10 tokens, condensation of a six-message sequence with
`buffer_total > 0` and candidate range size > 1 succeeds (no
CondenseError) yet the resulting sequence has MORE tokens than the
input — the code never checks that the token count decreased. -/
theorem claim_C1_counterexample :
    summarize_messages_inplace exTcX exSummarizer exMsgs6 = .ok exRes1 ∧
    tokenCountList exTcX exRes1 > tokenCountList exTcX exMsgs6 ∧
    message_buffer_token_count exTcX exMsgs6 > 0 ∧
    1 < ((exMsgs6.take (final_cutoff exTcX exMsgs6)).drop 2).length :=
  ⟨by rfl, by decide, by decide, by decide⟩

/-- C1 amended: when condensation succeeds it strictly reduces the
NUMBER of messages, and it reduces the token count whenever the summary
message's token count is smaller than the total count of the summarized
slice `messages[2:cutoff]`; the code does not verify token reduction
and fails with a CondenseError (SummarizeError) only on the empty /
too-small candidate-range conditions. -/
theorem claim_C1_amended : ∀ (tc : Msg → Nat) (sm : List Msg → List Char)
    (messages res : List Msg),
    summarize_messages_inplace tc sm messages = .ok res →
    res.length < messages.length ∧
    (tc ⟨Role.assistant, sm ((messages.take (final_cutoff tc messages)).drop 2)⟩ <
        tokenCountList tc ((messages.take (final_cutoff tc messages)).drop 2) →
      tokenCountList tc res < tokenCountList tc messages) := by
  intro tc sm messages res h
  obtain ⟨hco, hlt, hsl, hres⟩ := summarize_ok_spec tc sm messages res h
  have hmin : min 2 messages.length = 2 := Nat.min_eq_left (by omega)
  constructor
  · rw [hres]
    simp only [List.length_append, List.length_take, List.length_drop,
      List.length_cons, List.length_nil]
    omega
  · intro htok
    have hdec := tokenCountList_decomp tc messages (final_cutoff tc messages) (by omega)
    have hres2 : tokenCountList tc res =
        tokenCountList tc (messages.take 2) +
        tc ⟨Role.assistant, sm ((messages.take (final_cutoff tc messages)).drop 2)⟩ +
        tokenCountList tc (messages.drop (final_cutoff tc messages)) := by
      rw [hres, tokenCountList_append, tokenCountList_append]
      simp only [tokenCountList, List.map_cons, List.map_nil, List.sum_cons,
        List.sum_nil]
      omega
    omega

/-- C1 witness: a run on a concrete input where the summary is cheaper
than the removed slice, so both the message count and the token count
strictly decrease. -/
theorem claim_C1_witness :
    exRes1.length < exMsgs6.length ∧
    tokenCountList exTc1 exRes1 < tokenCountList exTc1 exMsgs6 := by
  have h := claim_C1_amended exTc1 exSummarizer exMsgs6 exRes1 (by rfl)
  exact ⟨h.1, h.2 (by decide)⟩

/-- C5 counterexample: with five one-token messages, the running sum
first exceeds the target at candidate-list scan position 2 (full-list
index 4), but the tentative cutoff computed by the code is 3 = scan
position + 1, not scan position + 2 as the claim states — the
`cutoff += 1` line accounts only for the system message, not for the
system+example offset of 2. -/
theorem claim_C5_counterexample :
    scanIdxFun ((exMsgs5.map exTc1).drop 2)
        (desired_token_count_to_summarize exTc1 exMsgs5) = 2 ∧
    tentative_cutoff exTc1 exMsgs5 = 3 ∧ (3 : Nat) ≠ 2 + 2 :=
  ⟨by decide, by decide, by decide⟩

/-- C5 amended: per-message token counts are accumulated forward over
`messages[2:]` until the running sum exceeds the target
(`buffer_total * 0.75`, with the last candidate index used when the sum
never exceeds it), and the tentative cutoff — before the user-role
adjustment — is the scan position within the candidate list plus 1
(one less than the full-list index of the message where the sum first
exceeds the target). -/
theorem claim_C5_amended : ∀ (tc : Msg → Nat) (messages : List Msg),
    messages.drop 2 ≠ [] →
    ∃ m, tentative_cutoff tc messages = m + 1 ∧
      m < ((messages.map tc).drop 2).length ∧
      (∀ p, p < m →
        ((((messages.map tc).drop 2).take (p + 1)).sum ≤
          desired_token_count_to_summarize tc messages)) ∧
      ((((messages.map tc).drop 2).take (m + 1)).sum >
          desired_token_count_to_summarize tc messages ∨
        (m = ((messages.map tc).drop 2).length - 1 ∧
          message_buffer_token_count tc messages ≤
            desired_token_count_to_summarize tc messages)) := by
  intro tc messages h
  have hcnt : ((messages.map tc).drop 2) ≠ [] := by
    intro hh
    apply h
    have h1 := congrArg List.length hh
    simp only [List.length_drop, List.length_map, List.length_nil] at h1
    exact List.drop_eq_nil_of_le (by omega)
  obtain ⟨m, h1, h2, h3, h4⟩ :=
    scanGo_spec (desired_token_count_to_summarize tc messages)
      ((messages.map tc).drop 2) hcnt 0 0
  refine ⟨m, ?_, h2, ?_, ?_⟩
  · rw [tentative_cutoff, scanIdxFun, h1]
    omega
  · intro p hp
    have hh := h3 p hp
    simpa using hh
  · rcases h4 with h4 | ⟨ha, hb⟩
    · left; simpa using h4
    · right
      exact ⟨ha, by simpa [message_buffer_token_count] using hb⟩

/-- C5 witness: the amended characterization instantiated on a concrete
five-message sequence with unit token counts. -/
theorem claim_C5_witness :
    ∃ m, tentative_cutoff exTc1 exMsgs5 = m + 1 ∧
      m < ((exMsgs5.map exTc1).drop 2).length ∧
      (∀ p, p < m →
        ((((exMsgs5.map exTc1).drop 2).take (p + 1)).sum ≤
          desired_token_count_to_summarize exTc1 exMsgs5)) ∧
      ((((exMsgs5.map exTc1).drop 2).take (m + 1)).sum >
          desired_token_count_to_summarize exTc1 exMsgs5 ∨
        (m = ((exMsgs5.map exTc1).drop 2).length - 1 ∧
          message_buffer_token_count exTc1 exMsgs5 ≤
            desired_token_count_to_summarize exTc1 exMsgs5)) :=
  claim_C5_amended exTc1 exMsgs5 (by decide)

/-- C6: condensation failure conditions.  Condensing exactly
`[system, example]` raises `SummarizeError` (the spec's CondenseError)
at the empty-candidate check; condensing `[system, example, m]` also
raises `SummarizeError` (for any roles and token counts, the candidate
range `[2, cutoff)` is empty there); and in general condensation raises
`SummarizeError` instead of summarizing whenever the candidate list is
empty or the range `[2, cutoff)` holds at most one message. -/
theorem claim_C6 :
    (∀ (tc : Msg → Nat) (sm : List Msg → List Char) (s e : Msg),
        summarize_messages_inplace tc sm [s, e] =
          .error SummarizeError.noCandidates)
    ∧ (∀ (tc : Msg → Nat) (sm : List Msg → List Char) (s e m : Msg),
        summarize_messages_inplace tc sm [s, e, m] =
          .error SummarizeError.rangeTooSmall)
    ∧ (∀ (tc : Msg → Nat) (sm : List Msg → List Char) (messages : List Msg),
        messages.drop 2 = [] ∨
          ((messages.take (final_cutoff tc messages)).drop 2).length ≤ 1 →
        ∃ err, summarize_messages_inplace tc sm messages = .error err) := by
  refine ⟨?_, ?_, ?_⟩
  · intro tc sm s e
    rfl
  · intro tc sm s e m
    have htent : tentative_cutoff tc [s, e, m] = 1 := rfl
    have hfc : final_cutoff tc [s, e, m] = 1 ∨ final_cutoff tc [s, e, m] = 2 := by
      rw [final_cutoff, htent, adjustCutoff]
      by_cases hr : e.role = Role.user
      · right; simp [hr]
      · left; simp [hr]
    rcases hfc with hfc | hfc
    · simp only [summarize_messages_inplace, hfc]
      rfl
    · simp only [summarize_messages_inplace, hfc]
      rfl
  · intro tc sm messages hdisj
    by_cases hc : (messages.drop 2).length = 0
    · refine ⟨.noCandidates, ?_⟩
      simp only [summarize_messages_inplace]
      rw [if_pos hc]
    · rcases hdisj with hd | hd
      · exact absurd (by rw [hd]; rfl) hc
      · refine ⟨.rangeTooSmall, ?_⟩
        simp only [summarize_messages_inplace]
        rw [if_neg hc, if_pos hd]

/-- C6 witness: condensing the concrete `[system, example]` sequence
fails with a `SummarizeError`. -/
theorem claim_C6_witness :
    ∃ err, summarize_messages_inplace exTc1 exSummarizer exMsgs2 = .error err :=
  claim_C6.2.2 exTc1 exSummarizer exMsgs2 (Or.inl (by decide))

/-- C10: `summarize_messages_inplace` does not trim its input in place;
it returns a freshly built list equal to
`messages[0:2] + [assistant summary] + messages[cutoff:]`, whose first
two entries and whose tail from index 3 coincide with the input's
entries at indices `< 2` and `≥ cutoff` respectively (the embedding is
a pure function of the input list, which the source never writes to, so
the input keeps its length and entries). -/
theorem claim_C10 : ∀ (tc : Msg → Nat) (sm : List Msg → List Char)
    (messages res : List Msg),
    summarize_messages_inplace tc sm messages = .ok res →
    res = messages.take 2 ++
        [⟨Role.assistant, sm ((messages.take (final_cutoff tc messages)).drop 2)⟩] ++
        messages.drop (final_cutoff tc messages) ∧
    (∀ i, i < 2 → res[i]? = messages[i]?) ∧
    (∀ j, res[3 + j]? = messages[final_cutoff tc messages + j]?) ∧
    res.length + final_cutoff tc messages = messages.length + 3 := by
  intro tc sm messages res h
  obtain ⟨hco, hlt, hsl, hres⟩ := summarize_ok_spec tc sm messages res h
  have hmin : min 2 messages.length = 2 := Nat.min_eq_left (by omega)
  refine ⟨hres, ?_, ?_, ?_⟩
  · intro i hi
    rw [hres, List.append_assoc,
      List.getElem?_append_left (by simp only [List.length_take]; omega),
      List.getElem?_take, if_pos hi]
  · intro j
    rw [hres, List.append_assoc,
      List.getElem?_append_right (by simp only [List.length_take]; omega)]
    have hlen2 : (messages.take 2).length = 2 := by
      simp only [List.length_take]; omega
    rw [hlen2]
    have h3 : 3 + j - 2 = 1 + j := by omega
    rw [h3, List.getElem?_append_right (by simp), List.getElem?_drop]
    congr 1
    simp only [List.length_cons, List.length_nil]
    omega
  · rw [hres]
    simp only [List.length_append, List.length_take, List.length_drop,
      List.length_cons, List.length_nil]
    omega

/-- C10 witness: the structural equation instantiated on a concrete
six-message input. -/
theorem claim_C10_witness :
    exRes1 = exMsgs6.take 2 ++
      [⟨Role.assistant,
        exSummarizer ((exMsgs6.take (final_cutoff exTc1 exMsgs6)).drop 2)⟩] ++
      exMsgs6.drop (final_cutoff exTc1 exMsgs6) :=
  (claim_C10 exTc1 exSummarizer exMsgs6 exRes1 (by rfl)).1

/-! ## Helper lemma: completion-call bound of the step loop -/

theorem codeact_step_loop_go_calls_le (env : StepEnv) :
    ∀ (n : Nat) (messages : List Msg) (calls : Nat),
      (codeact_step_loop_go env n messages calls).2 ≤ calls + 1 := by
  intro n
  induction n with
  | zero => intro messages calls; simp [codeact_step_loop_go]
  | succ n ih =>
      intro messages calls
      simp only [codeact_step_loop_go]
      by_cases hov : env.overLimit messages = true
      · rw [if_pos hov]
        cases hcd : summarize_messages_inplace env.tokenCount env.summarizer messages with
        | ok m2 => simpa using ih m2 calls
        | error e => simp
      · rw [if_neg hov]
        cases env.completionAt calls <;> simp

/-- C2 counterexample: with the default `attempts_to_condense = 2`, an
always-over-limit environment and a condensable ten-message input, both
loop iterations condense, the retry budget is exhausted with no
completion response — and the step does NOT fail with
`ContextWindowLimitExceededError`: the loop falls through to
`self.action_parser.parse(response)` with `response = None`. -/
theorem claim_C2_counterexample :
    codeact_step_loop exStepEnvOver 2 exMsgs10 0 0 =
      (StepResult.parsedResponse false, 0) ∧
    StepResult.parsedResponse false ≠ StepResult.raisedContextWindowLimit :=
  ⟨by decide, by decide⟩

/-- C2 amended: the loop runs at most `attempts_to_condense` iterations
and makes at most ONE completion call per step, since any completion
outcome ends the loop: a successful response exits, a context-window
error raises `ContextWindowLimitExceededError` immediately (the local
limit re-check on the unchanged messages is false, so no condensation
happens for provider-raised context errors), and any other exception
propagates immediately without retry; an iteration whose local
token-limit check fires runs exactly one condensation pass (no
completion call) before the next attempt; and when the attempt budget
is exhausted without a response the loop exits and the parser is
invoked on a `None` response instead of raising
`ContextWindowLimitExceededError`. -/
theorem claim_C2_amended :
    (∀ (env : StepEnv) (lim : Nat) (messages : List Msg) (a c : Nat),
        (codeact_step_loop env lim messages a c).2 ≤ c + 1)
    ∧ (∀ (env : StepEnv) (lim : Nat) (messages m2 : List Msg) (a c : Nat),
        a < lim → env.overLimit messages = true →
        summarize_messages_inplace env.tokenCount env.summarizer messages = .ok m2 →
        codeact_step_loop env lim messages a c =
          codeact_step_loop env lim m2 (a + 1) c)
    ∧ (∀ (env : StepEnv) (lim : Nat) (messages : List Msg) (a c : Nat),
        a < lim → env.overLimit messages = false →
        env.completionAt c = .ctxWindowError →
        codeact_step_loop env lim messages a c =
          (StepResult.raisedContextWindowLimit, c + 1))
    ∧ (∀ (env : StepEnv) (lim : Nat) (messages : List Msg) (a c : Nat),
        a < lim → env.overLimit messages = false →
        env.completionAt c = .otherError →
        codeact_step_loop env lim messages a c = (StepResult.raisedOther, c + 1))
    ∧ (∀ (env : StepEnv) (lim : Nat) (messages : List Msg) (a c : Nat),
        lim ≤ a →
        codeact_step_loop env lim messages a c =
          (StepResult.parsedResponse false, c)) := by
  refine ⟨?_, ?_, ?_, ?_, ?_⟩
  · intro env lim messages a c
    rw [codeact_step_loop]
    exact codeact_step_loop_go_calls_le env (lim - a) messages c
  · intro env lim messages m2 a c hal hov hcond
    have hn : lim - a = (lim - (a + 1)) + 1 := by omega
    rw [codeact_step_loop, codeact_step_loop, hn]
    simp [codeact_step_loop_go, hov, hcond]
  · intro env lim messages a c hal hov hcomp
    have hn : lim - a = (lim - (a + 1)) + 1 := by omega
    rw [codeact_step_loop, hn]
    simp [codeact_step_loop_go, hov, hcomp]
  · intro env lim messages a c hal hov hcomp
    have hn : lim - a = (lim - (a + 1)) + 1 := by omega
    rw [codeact_step_loop, hn]
    simp [codeact_step_loop_go, hov, hcomp]
  · intro env lim messages a c hla
    rw [codeact_step_loop, Nat.sub_eq_zero_of_le hla]
    rfl

/-- C2 witness: a provider context-window failure on the first (and
only) completion call, with the local limit check false, raises
`ContextWindowLimitExceededError` after exactly one completion call. -/
theorem claim_C2_witness :
    codeact_step_loop exStepEnvCtx 2 exMsgs6 0 0 =
      (StepResult.raisedContextWindowLimit, 1) :=
  claim_C2_amended.2.2.1 exStepEnvCtx 2 exMsgs6 0 0 (by decide) (by rfl) (by rfl)

/-- C3 (code bug): with an agent that returns a FinishTask action on
its very first call and an iteration ceiling of 3, the controller run
invokes the agent three times: the first step already reports finished
(`controller_step` returns `True`), but the `_run` loop never breaks
on it — its `case TaskState.FINISHED, TaskState.STOPPED` match case is
a two-tuple sequence pattern that can never match an enum member, and
the loop does not test `self._finished` — so further agent steps are
invoked after the finishing one, against the claim. -/
theorem claim_C3_bug :
    (controller_step exCtrlEnvFinish ⟨[], 0⟩ 0 0).finished = true ∧
    (controller_run exCtrlEnvFinish .running 3 0 ⟨[], 0⟩ 0 false).calls = 3 ∧
    (controller_run exCtrlEnvFinish .running 3 0 ⟨[], 0⟩ 0 false).exc = none ∧
    (controller_run exCtrlEnvFinish .running 3 0 ⟨[], 0⟩ 0 false).finished = true :=
  ⟨by decide, by decide, by decide, by decide⟩

/-- C4: exception handling in the controller's step.  Under the
character budget, any generic exception from the agent's step function
is caught and converted into an `AgentErrorObservation` recorded in
History (as the pair `(NullAction, AgentErrorObservation(str(e)))`),
and the run loop proceeds to the next iteration instead of crashing;
an `AuthenticationError`, an `AgentNoActionError`, or a `None` action
(which raises `AgentNoActionError`) re-raise out of the step without
recording any observation, and a step exception terminates the run
loop by propagating out of it. -/
theorem claim_C4 : ∀ (env : CtrlEnv) (st : CtrlState) (i k : Nat) (m : List Char),
    st.numChars ≤ env.maxChars →
    ((env.agentResultAt k = .error (.genericError m) →
        controller_step env st i k =
          ⟨none,
            ⟨st.history ++ (env.backgroundObs i).map (fun o => (CtrlAction.nullA, o)) ++
              [(CtrlAction.nullA, CtrlObs.errorObs m)], st.numChars⟩,
            false, k + 1⟩)
      ∧ (env.agentResultAt k = .error .authError →
          controller_step env st i k =
            ⟨some CtrlExc.authError,
              ⟨st.history ++ (env.backgroundObs i).map (fun o => (CtrlAction.nullA, o)),
                st.numChars⟩, false, k + 1⟩)
      ∧ ((env.agentResultAt k = .error .noActionError ∨
            env.agentResultAt k = .ok none) →
          controller_step env st i k =
            ⟨some CtrlExc.noActionError,
              ⟨st.history ++ (env.backgroundObs i).map (fun o => (CtrlAction.nullA, o)),
                st.numChars⟩, false, k + 1⟩)
      ∧ (∀ (ts : TState) (maxIter : Nat) (wasFin : Bool) (e : CtrlExc),
          i < maxIter → (controller_step env st i k).exc = some e →
          controller_run env ts maxIter i st k wasFin =
            ⟨some e, (controller_step env st i k).st,
              (controller_step env st i k).finished,
              (controller_step env st i k).calls⟩)
      ∧ (∀ (ts : TState) (maxIter : Nat) (wasFin : Bool),
          i < maxIter → ts ≠ TState.paused →
          env.agentResultAt k = .error (.genericError m) →
          controller_run env ts maxIter i st k wasFin =
            controller_run env ts maxIter (i + 1)
              ⟨st.history ++ (env.backgroundObs i).map (fun o => (CtrlAction.nullA, o)) ++
                [(CtrlAction.nullA, CtrlObs.errorObs m)], st.numChars⟩
              (k + 1) false)) := by
  intro env st i k m hnc
  have hlt : ¬ st.numChars > env.maxChars := by omega
  refine ⟨?_, ?_, ?_, ?_, ?_⟩
  · intro hagent
    simp [controller_step, hlt, hagent]
  · intro hagent
    simp [controller_step, hlt, hagent]
  · intro hagent
    rcases hagent with hagent | hagent <;> simp [controller_step, hlt, hagent]
  · intro ts maxIter wasFin e hi hexc
    have hn : maxIter - i = (maxIter - (i + 1)) + 1 := by omega
    rw [controller_run, hn]
    simp [controller_run_go, hexc]
  · intro ts maxIter wasFin hi hts hagent
    have hstep : controller_step env st i k =
        ⟨none,
          ⟨st.history ++ (env.backgroundObs i).map (fun o => (CtrlAction.nullA, o)) ++
            [(CtrlAction.nullA, CtrlObs.errorObs m)], st.numChars⟩,
          false, k + 1⟩ := by
      simp [controller_step, hlt, hagent]
    have hn : maxIter - i = (maxIter - (i + 1)) + 1 := by omega
    rw [controller_run, controller_run, hn]
    simp only [controller_run_go, hstep]
    rw [if_neg hts]

/-- C4 witness: on concrete inputs, a generic agent exception is
recorded in History as `(NullAction, AgentErrorObservation)` with no
exception escaping, while an authentication error escapes the step with
nothing recorded. -/
theorem claim_C4_witness :
    controller_step exCtrlEnvErr ⟨[], 0⟩ 0 0 =
      ⟨none, ⟨[(CtrlAction.nullA, CtrlObs.errorObs "boom".toList)], 0⟩, false, 1⟩ ∧
    controller_step exCtrlEnvErr ⟨[], 0⟩ 0 1 =
      ⟨some CtrlExc.authError, ⟨[], 0⟩, false, 2⟩ := by
  constructor
  · have h := (claim_C4 exCtrlEnvErr ⟨[], 0⟩ 0 0 ("boom".toList) (by decide)).1 (by rfl)
    simpa using h
  · have h := (claim_C4 exCtrlEnvErr ⟨[], 0⟩ 0 1 [] (by decide)).2.1 (by rfl)
    simpa using h

/-! ## Helper lemmas: newline split and join -/

theorem splitNL_ne_nil : ∀ s : List Char, splitNL s ≠ [] := by
  intro s
  cases s with
  | nil => simp [splitNL]
  | cons c cs =>
      simp only [splitNL]
      split
      · simp
      · split <;> simp

theorem splitNL_no_newline : ∀ (s : List Char) (l : List Char),
    l ∈ splitNL s → '\n' ∉ l := by
  intro s
  induction s with
  | nil =>
      intro l hl
      simp only [splitNL, List.mem_singleton] at hl
      subst hl
      simp
  | cons c cs ih =>
      intro l hl
      by_cases hc : c = '\n'
      · rw [show splitNL (c :: cs) = [] :: splitNL cs by simp [splitNL, hc]] at hl
        rcases List.mem_cons.mp hl with hl | hl
        · subst hl; simp
        · exact ih l hl
      · cases hr : splitNL cs with
        | nil => exact absurd hr (splitNL_ne_nil cs)
        | cons h2 t2 =>
            rw [show splitNL (c :: cs) = (c :: h2) :: t2 by
              simp [splitNL, hc, hr]] at hl
            rcases List.mem_cons.mp hl with hl | hl
            · subst hl
              intro hmem
              rcases List.mem_cons.mp hmem with hh | hh
              · exact hc hh.symm
              · exact ih h2 (hr ▸ List.mem_cons_self h2 t2) hh
            · exact ih l (hr ▸ List.mem_cons_of_mem h2 hl)

theorem splitNL_single : ∀ l : List Char, '\n' ∉ l → splitNL l = [l] := by
  intro l
  induction l with
  | nil => intro _; rfl
  | cons c cs ih =>
      intro h
      have hc : ¬ c = '\n' := fun hh => h (by simp [hh])
      have hcs : '\n' ∉ cs := fun hh => h (List.mem_cons_of_mem c hh)
      simp [splitNL, hc, ih hcs]

theorem splitNL_append_newline : ∀ (l x : List Char), '\n' ∉ l →
    splitNL (l ++ '\n' :: x) = l :: splitNL x := by
  intro l
  induction l with
  | nil => intro x _; simp [splitNL]
  | cons c cs ih =>
      intro x h
      have hc : ¬ c = '\n' := fun hh => h (by simp [hh])
      have hcs : '\n' ∉ cs := fun hh => h (List.mem_cons_of_mem c hh)
      simp [splitNL, hc, ih x hcs]

theorem splitNL_joinNL : ∀ ls : List (List Char), ls ≠ [] →
    (∀ l ∈ ls, '\n' ∉ l) → splitNL (joinNL ls) = ls := by
  intro ls
  induction ls with
  | nil => intro h _; exact absurd rfl h
  | cons l rest ih =>
      intro _ h
      cases rest with
      | nil =>
          show splitNL (joinNL [l]) = [l]
          rw [joinNL]
          exact splitNL_single l (h l (List.mem_cons_self l []))
      | cons l2 rest2 =>
          have hj : joinNL (l :: l2 :: rest2) = l ++ '\n' :: joinNL (l2 :: rest2) := rfl
          rw [hj, splitNL_append_newline l _ (h l (List.mem_cons_self l _)),
            ih (by simp) (fun x hx => h x (List.mem_cons_of_mem l hx))]

/-- C9: base64 image payload replacement.  Within the character budget
(so that the spec-modelled truncation is the identity), the message
built for an IPython code-cell observation has exactly the input's
lines with every line containing the base64 marker replaced by the
fixed placeholder: positionally, the line at the payload's index IS the
placeholder, and every marker-bearing line of the built message equals
the placeholder — the raw payload line never survives. -/
theorem claim_C9 : ∀ (obsContent : List Char) (maxChars : Nat),
    (joinNL ((splitNL (obsPrefix ++ obsContent)).map replaceImageLine)).length ≤
      maxChars →
    splitNL (ipython_observation_message obsContent maxChars).content =
        (splitNL (obsPrefix ++ obsContent)).map replaceImageLine
    ∧ (∀ (i : Nat) (l : List Char),
        (splitNL (obsPrefix ++ obsContent))[i]? = some l →
        containsSeq imgBase64Marker l = true →
        (splitNL (ipython_observation_message obsContent maxChars).content)[i]? =
          some imgPlaceholder)
    ∧ (∀ l, l ∈ splitNL (ipython_observation_message obsContent maxChars).content →
        containsSeq imgBase64Marker l = true → l = imgPlaceholder) := by
  intro obsContent maxChars htr
  have hmain : splitNL (ipython_observation_message obsContent maxChars).content =
      (splitNL (obsPrefix ++ obsContent)).map replaceImageLine := by
    show splitNL (truncate_content
      (joinNL ((splitNL (obsPrefix ++ obsContent)).map replaceImageLine)) maxChars) = _
    rw [truncate_content, if_pos htr]
    apply splitNL_joinNL
    · intro hh
      exact splitNL_ne_nil (obsPrefix ++ obsContent) (List.map_eq_nil_iff.mp hh)
    · intro l hl
      obtain ⟨l0, hl0, hfl⟩ := List.mem_map.mp hl
      rw [← hfl, replaceImageLine]
      split
      · decide
      · exact splitNL_no_newline _ l0 hl0
  refine ⟨hmain, ?_, ?_⟩
  · intro i l hil hmark
    rw [hmain, List.getElem?_map, hil]
    simp [replaceImageLine, hmark]
  · intro l hl hmark
    rw [hmain] at hl
    obtain ⟨l0, hl0, hfl⟩ := List.mem_map.mp hl
    by_cases h0 : containsSeq imgBase64Marker l0 = true
    · rw [← hfl]
      simp [replaceImageLine, h0]
    · exfalso
      apply h0
      rw [← hfl, replaceImageLine, if_neg h0] at hmark
      exact hmark

/-- C9 witness: on a concrete observation containing a payload line,
the built message's line at the payload's index is the placeholder. -/
theorem claim_C9_witness :
    (splitNL (ipython_observation_message exObsContent 10000).content)[2]? =
      some imgPlaceholder :=
  (claim_C9 exObsContent 10000 (by decide)).2.1 2
    "![image](data:image/png;base64,AAAA)".toList (by decide) (by decide)
